import Mathlib

/-!
# Verification of the `expressions` package

A shallow embedding of `src/expressions/expressions.py`:

* the expression data model (`Expression` / `Terminal` / `Number` / `Symbol` /
  `Operator` and its five subclasses `Add`, `Sub`, `Mul`, `Div`, `Pow`),
* the generic work-list postorder visitor `postvisitor`, with the memo
  dictionary keyed by node identity, and
* the `singledispatch` differentiation rules registered on `differentiate`.

Python object identity is modelled by an *arena*: every node object is a
natural-number id pointing into a list of node records, and a node's operand
tuple is a list of ids of earlier-constructed nodes (Python objects are built
bottom-up, so each operand id is strictly smaller than the id of its parent).
The memo dictionary `visited` of `postvisitor` then becomes a map from ids to
results, exactly mirroring the id-keyed Python `dict` (the classes define no
custom `eq` or hash, so the dict keys by identity).

Structural facts that do not depend on sharing (the constructors, the
arithmetic dunder methods, and the differentiation rules, which never recurse)
are stated on the plain tree type `Expr`.
-/

set_option maxHeartbeats 1600000

namespace ExpressionsPy

/-- The runtime class of a node, together with its scalar payload.
`number` and `symbol` model the two `Terminal` subclasses; the five operator
constructors model the `Operator` subclasses; `other name` models any other
`Expression` subclass (named `name`) that has no rule registered on
`differentiate`. -/
inductive Kind where
  | number (v : Int)
  | symbol (s : String)
  | add
  | sub
  | mul
  | div
  | pow
  | other (name : String)
deriving DecidableEq, Repr

/-- The kinds for which `differentiate.register` is called, i.e. the five
`Operator` subclasses: they carry exactly two operands when built through the
documented interface. -/
def Kind.isOp : Kind → Bool
  | .add | .sub | .mul | .div | .pow => true
  | _ => false

/-- The `Terminal` kinds (`Number` and `Symbol`). -/
def Kind.isTerminal : Kind → Bool
  | .number _ | .symbol _ => true
  | _ => false

/-- A Python `Expression` object viewed structurally (payload-carrying kind
plus the tuple `self.operands`).  The arena (below) adds object identity on
top of this tree view. -/
inductive Expr where
  | mk (kind : Kind) (ops : List Expr)

/-- `type(e)` of a node. -/
def Expr.kind : Expr → Kind
  | .mk k _ => k

/-- `e.operands` of a node. -/
def Expr.ops : Expr → List Expr
  | .mk _ o => o

/-- `Number(v)`, constructed from a value already known to be numeric
(as the differentiation rules do with the literals 0, 1 and 2). -/
def NumberT (v : Int) : Expr := .mk (.number v) []

/-- `Symbol(s)`, constructed from a value already known to be text. -/
def SymbolT (s : String) : Expr := .mk (.symbol s) []

/-! ## Constructor type checks (`Number.__init__`, `Symbol.__init__`)

`Number.__init__` accepts exactly the `numbers.Number` instances and raises
`TypeError` otherwise; `Symbol.__init__` accepts exactly `str` instances.
`PyVal` is the universe of values a caller might pass: a numeric value, a
text value, an already-built expression node, or anything else. -/

/-- A Python value passed to a constructor. -/
inductive PyVal where
  | int (n : Int)
  | str (s : String)
  | expr (e : Expr)
  | otherVal

/-- `isinstance(v, numbers.Number)`. -/
def PyVal.isNumeric : PyVal → Bool
  | .int _ => true
  | _ => false

/-- `isinstance(v, str)`. -/
def PyVal.isText : PyVal → Bool
  | .str _ => true
  | _ => false

/-- The single error class raised by both terminal constructors
(`raise TypeError`). -/
inductive PyTypeError where
  | typeError
deriving DecidableEq, Repr

/-- `Number(value)`: sets `self.operands = ()`, keeps the payload if it is
numeric, and raises `TypeError` otherwise. -/
def NumberInit : PyVal → Except PyTypeError Expr
  | .int n => .ok (.mk (.number n) [])
  | _ => .error .typeError

/-- `Symbol(value)`: sets `self.operands = ()`, keeps the payload if it is
text, and raises `TypeError` otherwise. -/
def SymbolInit : PyVal → Except PyTypeError Expr
  | .str s => .ok (.mk (.symbol s) [])
  | _ => .error .typeError

/-! ## Operator construction and arithmetic composition

`Expression.__init__(*operands)` wraps each operand that is a raw
`numbers.Number` in a `Number` node and stores the tuple.  The arithmetic
dunder methods build the corresponding `Operator` subclass from `self` and
`other`, the reflected forms with the arguments in swapped positions
(`__rsub__(self, other)` returns `Sub(other, self)`). -/

/-- An operand position accepts an expression node or a raw numeric value. -/
def boxOperand : Int ⊕ Expr → Expr
  | .inl n => .mk (.number n) []
  | .inr e => e

/-- `Expression.__init__(*operands)`: the stored operand tuple, each raw
number boxed into a `Number` node. -/
def expressionInit (operands : List (Int ⊕ Expr)) : List Expr :=
  operands.map boxOperand

/-- Constructing an `Operator` subclass (`Add(a, b)` etc.) through
`Expression.__init__`. -/
def mkOp (k : Kind) (a b : Int ⊕ Expr) : Expr :=
  .mk k (expressionInit [a, b])

/-- `Expression.__add__`. -/
def Expr.dunderAdd (self : Expr) (other : Int ⊕ Expr) : Expr :=
  mkOp .add (.inr self) other

/-- `Expression.__sub__`. -/
def Expr.dunderSub (self : Expr) (other : Int ⊕ Expr) : Expr :=
  mkOp .sub (.inr self) other

/-- `Expression.__mul__`. -/
def Expr.dunderMul (self : Expr) (other : Int ⊕ Expr) : Expr :=
  mkOp .mul (.inr self) other

/-- `Expression.__truediv__`. -/
def Expr.dunderDiv (self : Expr) (other : Int ⊕ Expr) : Expr :=
  mkOp .div (.inr self) other

/-- `Expression.__pow__`. -/
def Expr.dunderPow (self : Expr) (other : Int ⊕ Expr) : Expr :=
  mkOp .pow (.inr self) other

/-- `Expression.__radd__` (`other + self` with a non-expression `other`). -/
def Expr.dunderRAdd (self : Expr) (other : Int ⊕ Expr) : Expr :=
  mkOp .add other (.inr self)

/-- `Expression.__rsub__`. -/
def Expr.dunderRSub (self : Expr) (other : Int ⊕ Expr) : Expr :=
  mkOp .sub other (.inr self)

/-- `Expression.__rmul__`. -/
def Expr.dunderRMul (self : Expr) (other : Int ⊕ Expr) : Expr :=
  mkOp .mul other (.inr self)

/-- `Expression.__rtruediv__`. -/
def Expr.dunderRDiv (self : Expr) (other : Int ⊕ Expr) : Expr :=
  mkOp .div other (.inr self)

/-- `Expression.__rpow__`. -/
def Expr.dunderRPow (self : Expr) (other : Int ⊕ Expr) : Expr :=
  mkOp .pow other (.inr self)

/-- The nodes obtainable through the public construction interface:
`Number(v)` and `Symbol(s)` on well-typed payloads, and the five binary
compositions on previously constructed nodes (with raw numbers boxed by
`Expression.__init__`). -/
inductive Built : Expr → Prop where
  | number (v : Int) : Built (.mk (.number v) [])
  | symbol (s : String) : Built (.mk (.symbol s) [])
  | op (k : Kind) (hk : k.isOp = true) (a b : Expr)
      (ha : Built a) (hb : Built b) : Built (.mk k [a, b])

/-- Boxing a built operand yields a built node. -/
theorem built_boxOperand {x : Int ⊕ Expr}
    (hx : ∀ e, x = .inr e → Built e) : Built (boxOperand x) := by
  cases x with
  | inl n => exact .number n
  | inr e => exact hx e rfl

/-- Binary composition of built operands yields a built node. -/
theorem built_mkOp (k : Kind) (hk : k.isOp = true) (a b : Int ⊕ Expr)
    (ha : ∀ e, a = .inr e → Built e) (hb : ∀ e, b = .inr e → Built e) :
    Built (mkOp k a b) :=
  .op k hk (boxOperand a) (boxOperand b)
    (built_boxOperand ha) (built_boxOperand hb)

/-! ## Differentiation rules

`differentiate` is a `functools.singledispatch` function: its base
implementation raises `NotImplementedError` naming the runtime class of its
argument, and one implementation is registered per node class.  The rule for
a node receives the node itself and the already-differentiated children as
positional arguments `*c`, plus the keyword argument `var`.  Indexing `c[i]`
or `expr.operands[i]` past the end raises `IndexError`. -/

/-- The errors a call of the differentiation rule can raise. -/
inductive DiffErr where
  | notImplemented (msg : String)
  | indexError
deriving DecidableEq, Repr

/-- `xs[i]` on a Python tuple/list: `IndexError` when out of range. -/
def pyIdx {α : Type} (xs : List α) (i : Nat) : Except DiffErr α :=
  match xs.get? i with
  | some x => .ok x
  | none => .error .indexError

/-- The name `type(expr).__name__` used in the base case's message. -/
def Kind.className : Kind → String
  | .number _ => "Number"
  | .symbol _ => "Symbol"
  | .add => "Add"
  | .sub => "Sub"
  | .mul => "Mul"
  | .div => "Div"
  | .pow => "Pow"
  | .other name => name

/-- One invocation of `differentiate` (the `singledispatch` rule table):
dispatch on the runtime class of `expr`, with `c` the tuple of extra
positional arguments (the already-differentiated children when called through
`postvisitor`) and `var` the keyword argument. -/
def diffRule (expr : Expr) (c : List Expr) (var : String) :
    Except DiffErr Expr :=
  match expr.kind with
  | .number _ => .ok (NumberT 0)
  | .symbol s => .ok (if s = var then NumberT 1 else NumberT 0)
  | .add => do
      pure (.mk .add [← pyIdx c 0, ← pyIdx c 1])
  | .sub => do
      pure (.mk .sub [← pyIdx c 0, ← pyIdx c 1])
  | .mul => do
      pure (.mk .add [.mk .mul [← pyIdx c 0, ← pyIdx expr.ops 1],
                      .mk .mul [← pyIdx c 1, ← pyIdx expr.ops 0]])
  | .div => do
      pure (.mk .div [.mk .sub [.mk .mul [← pyIdx c 0, ← pyIdx expr.ops 1],
                                .mk .mul [← pyIdx c 1, ← pyIdx expr.ops 0]],
                      .mk .pow [← pyIdx expr.ops 1, NumberT 2]])
  | .pow => do
      pure (.mk .mul [← pyIdx expr.ops 1,
                      .mk .pow [← pyIdx expr.ops 0,
                                .mk .sub [← pyIdx expr.ops 1, NumberT 1]]])
  | .other name =>
      .error (.notImplemented ("Cannot differentiate a " ++ name))

/-- A direct call `differentiate(expr, var=var)`: no positional arguments
besides the node itself, so the rule receives an empty tuple of child
results. -/
def differentiateDirect (expr : Expr) (var : String) : Except DiffErr Expr :=
  diffRule expr [] var

/-! ## The object arena: node identity

A node object is an id into an arena of node records.  Ids are assigned in
construction order, so every operand id is strictly smaller than the id of
the node holding it (`wfArena`): a Python expression graph is finite and
acyclic because nodes are immutable and built bottom-up. -/

/-- One node record: its runtime class/payload and its operand ids. -/
structure NodeR where
  kind : Kind
  ops : List Nat
deriving DecidableEq, Repr

instance : Inhabited NodeR := ⟨⟨.other "", []⟩⟩

/-- The object arena: node `n` is the record at index `n`. -/
abbrev Arena := List NodeR

/-- The operand tuple of node `n` (empty for an id not in the arena). -/
def opsOf (A : Arena) (n : Nat) : List Nat :=
  ((List.get? A n).getD default).ops

/-- The runtime class of node `n`. -/
def kindOf (A : Arena) (n : Nat) : Kind :=
  ((List.get? A n).getD default).kind

/-- Every operand id precedes the id of its parent: the bottom-up
construction order of immutable Python objects. -/
def wfArena (A : Arena) : Bool :=
  (List.range A.length).all fun i => (opsOf A i).all fun c => decide (c < i)

theorem wfArena_lt {A : Arena} (hA : wfArena A = true)
    {i c : Nat} (hi : i < A.length) (hc : c ∈ opsOf A i) : c < i := by
  have h1 := List.all_eq_true.mp hA i (List.mem_range.mpr hi)
  exact of_decide_eq_true (List.all_eq_true.mp h1 c hc)

/-- Every operator node carries exactly two operand ids (the documented
construction interface). -/
def arity2 (A : Arena) : Bool :=
  A.all fun node => !node.kind.isOp || decide (node.ops.length = 2)

/-- `Reaches A n m`: node `m` occurs in the expression graph rooted at `n`
(it is `n` itself or reachable through operand edges). -/
inductive Reaches (A : Arena) : Nat → Nat → Prop where
  | refl (n : Nat) : Reaches A n n
  | step (n c m : Nat) : c ∈ opsOf A n → Reaches A c m → Reaches A n m

/-- Reading a node id back as a structural tree.  The fuel argument only
drives the recursion; `fuel = n + 1` fully unfolds node `n` of a well-formed
arena, because operand ids strictly decrease. -/
def unfoldAux : Nat → Arena → Nat → Expr
  | 0, A, n => .mk (kindOf A n) []
  | fuel + 1, A, n =>
      .mk (kindOf A n)
        ((opsOf A n).map fun c =>
          if c < n then unfoldAux fuel A c else .mk (kindOf A c) [])

/-- The structural tree of node `n`. -/
def unfold (A : Arena) (n : Nat) : Expr := unfoldAux (n + 1) A n

theorem unfold_kind (A : Arena) (n : Nat) : (unfold A n).kind = kindOf A n :=
  rfl

theorem unfold_ops_length (A : Arena) (n : Nat) :
    (unfold A n).ops.length = (opsOf A n).length := by
  simp [unfold, unfoldAux, Expr.ops]

/-- `differentiate` used as the combining function of `postvisitor`: node
`n` is the Python object passed as first argument, `c` the visitor-supplied
child results, and the keyword argument `var` is threaded through unchanged.
-/
def diffFn (A : Arena) (n : Nat) (c : List Expr) (var : String) :
    Except DiffErr Expr :=
  diffRule (unfold A n) c var

/-! ## `postvisitor`: the work-list loop

```
stack = []
visited = {}
stack.append(expr)
while stack:
    current = stack.pop()
    unvisited = []
    for child in current.operands:
        if child not in visited:
            unvisited.append(child)
    if unvisited:
        stack.append(current)
        stack.extend(unvisited)
    else:
        visited[current] = fn(current, *[visited[child]
                                         for child in current.operands],
                              **kwargs)
return visited[expr]
```

The state carries the stack (head = top, i.e. the end Python pops from), the
id-keyed memo dictionary, and — as a ghost field absent from the Python
code — the trace of `fn` invocations in order.  An uncaught error raised by
`fn` aborts the loop and propagates (`Except.error`); one `stepF` application
is one iteration of the `while` loop. -/

structure St (R : Type) where
  stack : List Nat
  visited : Nat → Option R
  trace : List Nat

/-- `visited[current] = r`. -/
def updt {R : Type} (V : Nat → Option R) (cur : Nat) (r : R) :
    Nat → Option R :=
  fun n => if n = cur then some r else V n

/-- One iteration of the `while` loop (identity once the stack is empty or
an error has propagated). -/
def stepF {R K ε : Type} (A : Arena) (fn : Nat → List R → K → Except ε R)
    (kw : K) : St R ⊕ ε → St R ⊕ ε
  | .inr e => .inr e
  | .inl s =>
    match s.stack with
    | [] => .inl s
    | cur :: rest =>
      let ops := opsOf A cur
      let unvis := ops.filter fun c => (s.visited c).isNone
      if unvis.isEmpty then
        match fn cur (ops.filterMap s.visited) kw with
        | .ok r => .inl ⟨rest, updt s.visited cur r, s.trace ++ [cur]⟩
        | .error e => .inr e
      else
        .inl ⟨unvis.reverse ++ cur :: rest, s.visited, s.trace⟩

/-- The state after `fuel` loop iterations, from the initial state
`stack = [expr]`, `visited = {}`. -/
def postvisitorRun {R K ε : Type} (A : Arena)
    (fn : Nat → List R → K → Except ε R) (kw : K) (root : Nat)
    (fuel : Nat) : St R ⊕ ε :=
  (stepF A fn kw)^[fuel] (.inl ⟨[root], fun _ => none, []⟩)

/-- `postvisitor(expr, fn, **kwargs)` observed after `fuel` iterations:
`none` while the loop is still running, `some (.error e)` when `fn` raised
`e`, and `some (.ok r)` when the loop finished and returned
`visited[expr] = r`. -/
def postvisitorFuel {R K ε : Type} (A : Arena)
    (fn : Nat → List R → K → Except ε R) (kw : K) (root : Nat)
    (fuel : Nat) : Option (Except ε R) :=
  match postvisitorRun A fn kw root fuel with
  | .inr e => some (.error e)
  | .inl s =>
      if s.stack.isEmpty then (s.visited root).map .ok else none

/-- The invocation trace of a completed run: the node ids passed to `fn`,
in invocation order. -/
def postvisitorTraceF {R K ε : Type} (A : Arena)
    (fn : Nat → List R → K → Except ε R) (kw : K) (root : Nat)
    (fuel : Nat) : Option (List Nat) :=
  match postvisitorRun A fn kw root fuel with
  | .inr _ => none
  | .inl s => if s.stack.isEmpty then some s.trace else none

/-- A combining function that returns on every invocation, as a fallible
one that never raises. -/
def okify {R K : Type} (f : Nat → List R → K → R) :
    Nat → List R → K → Except Unit R :=
  fun n c k => .ok (f n c k)

/-! ## Small list facts used throughout -/

theorem filterMap_length_of_isSome {R : Type} {V : Nat → Option R} :
    ∀ {l : List Nat}, (∀ c ∈ l, (V c).isSome = true) →
      (l.filterMap V).length = l.length := by
  intro l
  induction l with
  | nil => intro _; rfl
  | cons a t ih =>
      intro h
      have ha := h a (List.mem_cons_self a t)
      obtain ⟨r, hr⟩ := Option.isSome_iff_exists.mp ha
      simp only [List.filterMap_cons, hr, List.length_cons]
      rw [ih fun c hc => h c (List.mem_cons_of_mem a hc)]

theorem filterMap_eq_map_of {R : Type} {V : Nat → Option R} {g : Nat → R} :
    ∀ {l : List Nat}, (∀ c ∈ l, V c = some (g c)) →
      l.filterMap V = l.map g := by
  intro l
  induction l with
  | nil => intro _; rfl
  | cons a t ih =>
      intro h
      simp only [List.filterMap_cons, h a (List.mem_cons_self a t),
        List.map_cons]
      rw [ih fun c hc => h c (List.mem_cons_of_mem a hc)]

theorem filter_none_nil {R : Type} {V : Nat → Option R} {l : List Nat}
    (h : ∀ c ∈ l, (V c).isSome = true) :
    (l.filter fun c => (V c).isNone) = [] := by
  rw [List.filter_eq_nil_iff]
  intro c hc
  simp only [Option.isNone_iff_eq_none]
  exact Option.isSome_iff_ne_none.mp (h c hc)

theorem mem_foldr_union {m : Nat} {g : Nat → Finset Nat} :
    ∀ {l : List Nat},
      m ∈ l.foldr (fun c acc => g c ∪ acc) (∅ : Finset Nat) →
      ∃ c ∈ l, m ∈ g c := by
  intro l
  induction l with
  | nil => intro h; simp at h
  | cons a t ih =>
      intro h
      rcases Finset.mem_union.mp h with h | h
      · exact ⟨a, List.mem_cons_self a t, h⟩
      · obtain ⟨c, hc, hm⟩ := ih h
        exact ⟨c, List.mem_cons_of_mem a hc, hm⟩

/-! ## The denotational fold

`dTot A f kw n` is the value `postvisitor` is specified to compute at node
`n` for a total combining function `f`: `f` applied to the node and the
recursively computed values of its operands (the keyword arguments `kw`
passed through unchanged).  The fuel argument only drives the recursion;
`fuel = n + 1` suffices for node `n` of a well-formed arena. -/

def dTotAux {R K : Type} (A : Arena) (f : Nat → List R → K → R) (kw : K) :
    Nat → Nat → R
  | 0, n => f n [] kw
  | fuel + 1, n =>
      f n
        ((opsOf A n).map fun c =>
          if c < n then dTotAux A f kw fuel c else f c [] kw) kw

/-- The postorder fold of `f` over the graph below node `n`. -/
def dTot {R K : Type} (A : Arena) (f : Nat → List R → K → R) (kw : K)
    (n : Nat) : R :=
  dTotAux A f kw (n + 1) n

theorem dTotAux_eq_dTot {R K : Type} {A : Arena}
    {f : Nat → List R → K → R} {kw : K} (hA : wfArena A = true) :
    ∀ n, n < A.length → ∀ fuel, n < fuel →
      dTotAux A f kw fuel n = dTot A f kw n := by
  intro n
  induction n using Nat.strong_induction_on with
  | _ n ih =>
      intro hn fuel hfuel
      match fuel, hfuel with
      | g + 1, hfuel =>
          show dTotAux A f kw (g + 1) n = dTotAux A f kw (n + 1) n
          simp only [dTotAux]
          congr 1
          apply List.map_congr_left
          intro c hc
          have hcn : c < n := wfArena_lt hA hn hc
          have hcl : c < A.length := Nat.lt_trans hcn hn
          simp only [if_pos hcn]
          rw [ih c hcn hcl g (Nat.lt_of_lt_of_le hcn (Nat.lt_succ_iff.mp hfuel)),
            ih c hcn hcl n hcn]

/-- Under well-formedness, `dTot` satisfies the expected unfolding: `f`
applied to the node and the folds of its operands. -/
theorem dTot_eq {R K : Type} {A : Arena} {f : Nat → List R → K → R} {kw : K}
    (hA : wfArena A = true) {n : Nat} (hn : n < A.length) :
    dTot A f kw n = f n ((opsOf A n).map (dTot A f kw)) kw := by
  show dTotAux A f kw (n + 1) n = _
  simp only [dTotAux]
  congr 1
  apply List.map_congr_left
  intro c hc
  have hcn : c < n := wfArena_lt hA hn hc
  simp only [if_pos hcn]
  exact dTotAux_eq_dTot hA c (Nat.lt_trans hcn hn) n hcn

/-! ## The set of distinct node identities in a graph -/

/-- The set of ids reachable from node `n`, computed with enough fuel
(`fuel = n + 1` suffices for a well-formed arena). -/
def reachAux (A : Arena) : Nat → Nat → Finset Nat
  | 0, n => {n}
  | fuel + 1, n =>
      insert n
        ((opsOf A n).foldr
          (fun c acc => (if c < n then reachAux A fuel c else {c}) ∪ acc) ∅)

/-- The distinct node identities of the expression graph rooted at `n`. -/
def reachFinset (A : Arena) (n : Nat) : Finset Nat := reachAux A (n + 1) n

theorem reachAux_sound {A : Arena} :
    ∀ fuel n m, m ∈ reachAux A fuel n → Reaches A n m := by
  intro fuel
  induction fuel with
  | zero =>
      intro n m hm
      rw [reachAux, Finset.mem_singleton] at hm
      rw [hm]
      exact Reaches.refl n
  | succ g ih =>
      intro n m hm
      rw [reachAux, Finset.mem_insert] at hm
      rcases hm with rfl | hm
      · exact Reaches.refl m
      · obtain ⟨c, hc, hmc⟩ := mem_foldr_union hm
        by_cases hcn : c < n
        · rw [if_pos hcn] at hmc
          exact Reaches.step n c m hc (ih c m hmc)
        · rw [if_neg hcn, Finset.mem_singleton] at hmc
          exact hmc ▸ Reaches.step n c c hc (Reaches.refl c)

theorem reachFinset_sound {A : Arena} {n m : Nat}
    (h : m ∈ reachFinset A n) : Reaches A n m :=
  reachAux_sound (n + 1) n m h

/-- Reachable nodes of a well-formed arena have ids in range. -/
theorem reaches_lt {A : Arena} (hA : wfArena A = true) :
    ∀ {n m : Nat}, Reaches A n m → n < A.length → m < A.length := by
  intro n m h
  induction h with
  | refl => exact id
  | step n c m hc _ ih =>
      intro hn
      exact ih (Nat.lt_trans (wfArena_lt hA hn hc) hn)

/-! ## Behaviour of one loop iteration -/

section Steps

variable {R K ε : Type} {A : Arena} {fn : Nat → List R → K → Except ε R}
  {kw : K}

theorem stepF_inr_iterate (e : ε) :
    ∀ k, (stepF A fn kw)^[k] (.inr e) = .inr e := by
  intro k
  induction k with
  | zero => rfl
  | succ g ih =>
      rw [Function.iterate_succ_apply]
      show (stepF A fn kw)^[g] (.inr e) = .inr e
      exact ih

theorem filter_none_all {V : Nat → Option R} {l : List Nat}
    (h : (l.filter fun c => (V c).isNone) = []) :
    ∀ c ∈ l, (V c).isSome = true := by
  intro c hc
  have := List.filter_eq_nil_iff.mp h c hc
  simp only [Option.isNone_iff_eq_none] at this
  exact Option.isSome_iff_ne_none.mpr this

theorem stepF_visit {cur : Nat} {rest : List Nat} {V : Nat → Option R}
    {tr : List Nat}
    (hempt : ((opsOf A cur).filter fun c => (V c).isNone).isEmpty = true) :
    stepF A fn kw (.inl ⟨cur :: rest, V, tr⟩) =
      (match fn cur ((opsOf A cur).filterMap V) kw with
       | .ok r => .inl ⟨rest, updt V cur r, tr ++ [cur]⟩
       | .error e => .inr e) := by
  simp only [stepF, hempt, if_true]

theorem stepF_pushback {cur : Nat} {rest : List Nat} {V : Nat → Option R}
    {tr : List Nat}
    (hempt : ((opsOf A cur).filter fun c => (V c).isNone).isEmpty = false) :
    stepF A fn kw (.inl ⟨cur :: rest, V, tr⟩) =
      .inl ⟨((opsOf A cur).filter fun c => (V c).isNone).reverse ++
              cur :: rest, V, tr⟩ := by
  simp only [stepF, hempt]
  rfl

/-- Every way one loop iteration can transform a live state into a live
state: the stack was empty, a node was visited, or a node was pushed back
with its unvisited operands. -/
theorem stepF_inl_cases {s s' : St R}
    (h : stepF A fn kw (.inl s) = .inl s') :
    (s.stack = [] ∧ s' = s) ∨
    (∃ (cur : Nat) (rest : List Nat) (r : R), s.stack = cur :: rest ∧
       (∀ c ∈ opsOf A cur, (s.visited c).isSome = true) ∧
       fn cur ((opsOf A cur).filterMap s.visited) kw = .ok r ∧
       s' = ⟨rest, updt s.visited cur r, s.trace ++ [cur]⟩) ∨
    (∃ (cur : Nat) (rest unvis : List Nat), s.stack = cur :: rest ∧
       (∀ c ∈ unvis, c ∈ opsOf A cur) ∧
       s' = ⟨unvis.reverse ++ cur :: rest, s.visited, s.trace⟩) := by
  obtain ⟨stk, V, tr⟩ := s
  match hstk : stk with
  | [] =>
      left
      refine ⟨rfl, ?_⟩
      simp only [stepF] at h
      exact (Sum.inl.inj h).symm
  | cur :: rest =>
      by_cases hempt :
          ((opsOf A cur).filter fun c => (V c).isNone).isEmpty = true
      · rw [stepF_visit hempt] at h
        match hfn : fn cur ((opsOf A cur).filterMap V) kw with
        | .ok r =>
            right; left
            rw [hfn] at h
            refine ⟨cur, rest, r, rfl, ?_, hfn, (Sum.inl.inj h).symm⟩
            exact filter_none_all (List.isEmpty_iff.mp hempt)
        | .error e =>
            rw [hfn] at h
            exact absurd h (by simp)
      · right; right
        rw [stepF_pushback (Bool.eq_false_iff.mpr hempt)] at h
        refine ⟨cur, rest, (opsOf A cur).filter fun c => (V c).isNone,
          rfl, fun c hc => List.mem_of_mem_filter hc, (Sum.inl.inj h).symm⟩

/-- Induction principle for step invariants along a successful run. -/
theorem iterate_inl_ind (Q : St R → Prop)
    (hstep : ∀ s s', stepF A fn kw (.inl s) = .inl s' → Q s → Q s') :
    ∀ k (s s' : St R), (stepF A fn kw)^[k] (.inl s) = .inl s' →
      Q s → Q s' := by
  intro k
  induction k with
  | zero =>
      intro s s' h hQ
      exact (Sum.inl.inj h) ▸ hQ
  | succ g ih =>
      intro s s' h hQ
      rw [Function.iterate_succ_apply] at h
      match h1 : stepF A fn kw (.inl s) with
      | .inr e =>
          rw [h1, stepF_inr_iterate] at h
          exact absurd h (by simp)
      | .inl s1 =>
          rw [h1] at h
          exact ih s1 s' h (hstep s s1 h1 hQ)

/-- The memo dictionary only grows along the run. -/
theorem iterate_dom {k : Nat} {s s' : St R}
    (h : (stepF A fn kw)^[k] (.inl s) = .inl s') :
    ∀ n, (s.visited n).isSome = true → (s'.visited n).isSome = true := by
  have := iterate_inl_ind
    (fun t => ∀ n, (s.visited n).isSome = true →
      (t.visited n).isSome = true) ?_ k s s' h (fun _ hn => hn)
  · exact this
  · intro t t' hstep hQ n hn
    rcases stepF_inl_cases hstep with ⟨_, rfl⟩ | ⟨cur, rest, r, _, _, _, rfl⟩ |
      ⟨cur, rest, unvis, _, _, rfl⟩
    · exact hQ n hn
    · have := hQ n hn
      simp only [updt]
      by_cases hc : n = cur <;> simp [hc, this]
    · exact hQ n hn

end Steps

/-! ## The loop empties its stack segment by segment

`processNode` is the heart of the development: popping a node either
eventually visits it (leaving the rest of the stack untouched and its id in
the memo dictionary) or aborts with an error raised by `fn` at some node of
its subgraph.  The induction is on the node id: well-formedness makes operand
ids strictly smaller. -/

/-- The run aborted with an error that `fn` raised at some node reachable
from `start`, called with one positional argument per operand. -/
def ErrOut {R K ε : Type} (A : Arena) (fn : Nat → List R → K → Except ε R)
    (kw : K) (start : Nat) (out : St R ⊕ ε) : Prop :=
  ∃ (e : ε) (m : Nat) (args : List R), out = .inr e ∧ Reaches A start m ∧
    args.length = (opsOf A m).length ∧ fn m args kw = .error e

/-- The segment above `rest` has been consumed and `start` is memoized. -/
def OkOut {R ε : Type} (start : Nat) (rest : List Nat) (out : St R ⊕ ε) :
    Prop :=
  ∃ (V' : Nat → Option R) (tr' : List Nat),
    out = .inl ⟨rest, V', tr'⟩ ∧ (V' start).isSome = true

section Process

variable {R K ε : Type} {A : Arena} {fn : Nat → List R → K → Except ε R}
  {kw : K}

theorem visitStep {cur : Nat} {rest : List Nat} {V : Nat → Option R}
    {tr : List Nat} (hall : ∀ c ∈ opsOf A cur, (V c).isSome = true) :
    ErrOut A fn kw cur (stepF A fn kw (.inl ⟨cur :: rest, V, tr⟩)) ∨
    OkOut cur rest (stepF A fn kw (.inl ⟨cur :: rest, V, tr⟩)) := by
  have hempt : ((opsOf A cur).filter fun c => (V c).isNone).isEmpty = true :=
    List.isEmpty_iff.mpr (filter_none_nil hall)
  match hfn : fn cur ((opsOf A cur).filterMap V) kw with
  | .ok r =>
      right
      rw [stepF_visit hempt, hfn]
      exact ⟨updt V cur r, tr ++ [cur], rfl, by simp [updt]⟩
  | .error e =>
      left
      rw [stepF_visit hempt, hfn]
      exact ⟨e, cur, (opsOf A cur).filterMap V, rfl, Reaches.refl cur,
        filterMap_length_of_isSome hall, hfn⟩

theorem processList {cur : Nat}
    (hproc : ∀ c, c ∈ opsOf A cur → ∀ (rest : List Nat) (V : Nat → Option R)
        (tr : List Nat), ∃ k,
        ErrOut A fn kw c ((stepF A fn kw)^[k] (.inl ⟨c :: rest, V, tr⟩)) ∨
        OkOut c rest ((stepF A fn kw)^[k] (.inl ⟨c :: rest, V, tr⟩))) :
    ∀ (l : List Nat), (∀ c ∈ l, c ∈ opsOf A cur) →
      ∀ (base : List Nat) (V : Nat → Option R) (tr : List Nat), ∃ k,
        (∃ c ∈ l, ErrOut A fn kw c
            ((stepF A fn kw)^[k] (.inl ⟨l ++ base, V, tr⟩))) ∨
        (∃ (V' : Nat → Option R) (tr' : List Nat),
            (stepF A fn kw)^[k] (.inl ⟨l ++ base, V, tr⟩) =
              .inl ⟨base, V', tr'⟩ ∧
            ∀ c ∈ l, (V' c).isSome = true) := by
  intro l
  induction l with
  | nil =>
      intro _ base V tr
      exact ⟨0, .inr ⟨V, tr, rfl, fun c hc => absurd hc (List.not_mem_nil c)⟩⟩
  | cons c t ih =>
      intro hl base V tr
      obtain ⟨k₁, h₁⟩ := hproc c (hl c (List.mem_cons_self c t)) (t ++ base)
        V tr
      rcases h₁ with herr | hok
      · exact ⟨k₁, .inl ⟨c, List.mem_cons_self c t, herr⟩⟩
      · obtain ⟨V₁, tr₁, hstate, hc₁⟩ := hok
        obtain ⟨k₂, h₂⟩ := ih (fun c' hc' => hl c' (List.mem_cons_of_mem c hc'))
          base V₁ tr₁
        refine ⟨k₂ + k₁, ?_⟩
        rw [Function.iterate_add_apply]
        show _ ∨ _
        rw [show (stepF A fn kw)^[k₁] (.inl ⟨c :: t ++ base, V, tr⟩) =
            .inl ⟨t ++ base, V₁, tr₁⟩ from hstate]
        rcases h₂ with ⟨c', hc', herr⟩ | ⟨V', tr', hfin, hsome⟩
        · exact .inl ⟨c', List.mem_cons_of_mem c hc', herr⟩
        · refine .inr ⟨V', tr', hfin, ?_⟩
          intro c'' hc''
          rcases List.mem_cons.mp hc'' with rfl | hc''
          · exact iterate_dom hfin c'' hc₁
          · exact hsome c'' hc''

theorem processNode (hA : wfArena A = true) :
    ∀ cur, cur < A.length → ∀ (rest : List Nat) (V : Nat → Option R)
      (tr : List Nat), ∃ k,
      ErrOut A fn kw cur ((stepF A fn kw)^[k] (.inl ⟨cur :: rest, V, tr⟩)) ∨
      OkOut cur rest ((stepF A fn kw)^[k] (.inl ⟨cur :: rest, V, tr⟩)) := by
  intro cur
  induction cur using Nat.strong_induction_on with
  | _ cur IH =>
  intro hcur rest V tr
  by_cases hempt :
      ((opsOf A cur).filter fun c => (V c).isNone).isEmpty = true
  · refine ⟨1, ?_⟩
    rw [Function.iterate_one]
    exact visitStep (filter_none_all (List.isEmpty_iff.mp hempt))
  · have hstep : stepF A fn kw (.inl ⟨cur :: rest, V, tr⟩) =
        .inl ⟨((opsOf A cur).filter fun c => (V c).isNone).reverse ++
          cur :: rest, V, tr⟩ :=
      stepF_pushback (Bool.eq_false_iff.mpr hempt)
    have hsub : ∀ c ∈ ((opsOf A cur).filter fun c => (V c).isNone).reverse,
        c ∈ opsOf A cur :=
      fun c hc => List.mem_of_mem_filter (List.mem_reverse.mp hc)
    have hproc : ∀ c, c ∈ opsOf A cur → ∀ (rest' : List Nat)
        (V' : Nat → Option R) (tr' : List Nat), ∃ k,
        ErrOut A fn kw c ((stepF A fn kw)^[k] (.inl ⟨c :: rest', V', tr'⟩)) ∨
        OkOut c rest' ((stepF A fn kw)^[k] (.inl ⟨c :: rest', V', tr'⟩)) := by
      intro c hc
      have hlt : c < cur := wfArena_lt hA hcur hc
      exact IH c hlt (Nat.lt_trans hlt hcur)
    obtain ⟨k₁, h₁⟩ := processList hproc
      ((opsOf A cur).filter fun c => (V c).isNone).reverse hsub
      (cur :: rest) V tr
    rcases h₁ with ⟨c, hc, herr⟩ | ⟨V₁, tr₁, hstate, hsome⟩
    · obtain ⟨e, m, args, hout, hreach, hlen, hfnm⟩ := herr
      refine ⟨k₁ + 1, ?_⟩
      rw [Function.iterate_add_apply, Function.iterate_one, hstep]
      exact .inl ⟨e, m, args, hout,
        Reaches.step cur c m (hsub c hc) hreach, hlen, hfnm⟩
    · have hall : ∀ c ∈ opsOf A cur, (V₁ c).isSome = true := by
        intro c hc
        by_cases hv : (V c).isSome = true
        · exact iterate_dom hstate c hv
        · refine hsome c (List.mem_reverse.mpr (List.mem_filter.mpr ⟨hc, ?_⟩))
          simp only [Option.isNone_iff_eq_none]
          exact Option.not_isSome_iff_eq_none.mp (by simpa using hv)
      refine ⟨1 + (k₁ + 1), ?_⟩
      rw [Function.iterate_add_apply, Function.iterate_add_apply,
        Function.iterate_one, hstep, hstate]
      exact visitStep hall

end Process

/-! ## Run invariants

Facts preserved by every loop iteration: the memo dictionary is closed under
operands, every memoized node has been passed to `fn`, the trace lists a
node's operands before every occurrence of the node, the memoized values
agree with the denotational fold when `fn` is total, and a node on which
`fn` always raises is never memoized. -/

section Invariants

variable {R K ε : Type} {A : Arena} {fn : Nat → List R → K → Except ε R}
  {kw : K}

/-- The memo dictionary is closed under operand edges. -/
def ClosedV (A : Arena) (V : Nat → Option R) : Prop :=
  ∀ n, (V n).isSome = true → ∀ c ∈ opsOf A n, (V c).isSome = true

/-- Every operand of every entry of the invocation trace occurs strictly
earlier in the trace: children before parents. -/
def TraceOrd (A : Arena) (tr : List Nat) : Prop :=
  ∀ i m, tr.get? i = some m → ∀ c ∈ opsOf A m,
    ∃ j, j < i ∧ tr.get? j = some c

/-- Memoized nodes appear in the trace, and the trace is postordered. -/
def TraceInvP (A : Arena) (s : St R) : Prop :=
  (∀ n, (s.visited n).isSome = true → n ∈ s.trace) ∧ TraceOrd A s.trace

theorem updt_isSome_mono {V : Nat → Option R} {cur x : Nat} {r : R}
    (h : (V x).isSome = true) : (updt V cur r x).isSome = true := by
  unfold updt
  by_cases hx : x = cur <;> simp [hx, h]

theorem iterate_closed {k : Nat} {s s' : St R}
    (h : (stepF A fn kw)^[k] (.inl s) = .inl s')
    (hC : ClosedV A s.visited) : ClosedV A s'.visited := by
  refine iterate_inl_ind (fun t => ClosedV A t.visited) ?_ k s s' h hC
  intro t t' ht hCt
  rcases stepF_inl_cases ht with ⟨_, rfl⟩ |
    ⟨cur, rest, r, hstk, hall, hfn, rfl⟩ | ⟨cur, rest, unvis, hstk, hu, rfl⟩
  · exact hCt
  · intro n hn c hc
    by_cases hcur : n = cur
    · exact updt_isSome_mono (hall c (hcur ▸ hc))
    · have hvn : (t.visited n).isSome = true := by
        simpa [updt, hcur] using hn
      exact updt_isSome_mono (hCt n hvn c hc)
  · exact hCt

theorem iterate_traceinv {k : Nat} {s s' : St R}
    (h : (stepF A fn kw)^[k] (.inl s) = .inl s')
    (hT : TraceInvP A s) : TraceInvP A s' := by
  refine iterate_inl_ind (TraceInvP A) ?_ k s s' h hT
  intro t t' ht hTt
  obtain ⟨hmem, hord⟩ := hTt
  rcases stepF_inl_cases ht with ⟨_, rfl⟩ |
    ⟨cur, rest, r, hstk, hall, hfn, rfl⟩ | ⟨cur, rest, unvis, hstk, hu, rfl⟩
  · exact ⟨hmem, hord⟩
  · constructor
    · intro n hn
      by_cases hcur : n = cur
      · rw [hcur]
        exact List.mem_append_right _ (List.mem_singleton_self cur)
      · have : (t.visited n).isSome = true := by
          simpa [updt, hcur] using hn
        exact List.mem_append_left _ (hmem n this)
    · intro i m hi c hc
      rcases Nat.lt_trichotomy i t.trace.length with hlt | heq | hgt
      · rw [List.get?_append hlt] at hi
        obtain ⟨j, hj, hjget⟩ := hord i m hi c hc
        exact ⟨j, hj, by
          rw [List.get?_append (Nat.lt_trans hj hlt)]
          exact hjget⟩
      · have hcur : m = cur := by
          rw [heq, List.get?_concat_length] at hi
          exact (Option.some.inj hi).symm
        subst hcur
        have hvc : (t.visited c).isSome = true := hall c hc
        have hmc : c ∈ t.trace := hmem c hvc
        obtain ⟨j, hjget⟩ := List.get?_of_mem hmc
        have hjlt : j < t.trace.length := by
          obtain ⟨hl, _⟩ := List.get?_eq_some.mp hjget
          exact hl
        exact ⟨j, heq ▸ hjlt, by
          rw [List.get?_append hjlt]
          exact hjget⟩
      · exfalso
        have : (t.trace ++ [cur]).get? i = none := by
          apply List.get?_len_le
          simpa using hgt
        rw [this] at hi
        exact Option.noConfusion hi
  · exact ⟨hmem, hord⟩

theorem closed_reach {V : Nat → Option R} (hC : ClosedV A V) :
    ∀ {n m : Nat}, Reaches A n m → (V n).isSome = true →
      (V m).isSome = true := by
  intro n m h
  induction h with
  | refl => exact id
  | step n c m hc _ ih => exact fun hn => ih (hC n hn c hc)

/-- When `fn` is the total function `f`, every memoized value is the
denotational fold of `f` at its node.  Threaded jointly with the fact that
all stack ids are in range. -/
theorem iterate_consistent {f : Nat → List R → K → R} {kw : K}
    (hA : wfArena A = true) :
    ∀ {k : Nat} {s s' : St R},
      (stepF A (okify f) kw)^[k] (.inl s) = .inl s' →
      ((∀ x ∈ s.stack, x < A.length) ∧
        (∀ n r, s.visited n = some r → r = dTot A f kw n)) →
      ((∀ x ∈ s'.stack, x < A.length) ∧
        (∀ n r, s'.visited n = some r → r = dTot A f kw n)) := by
  intro k s s' h hG
  refine iterate_inl_ind
    (fun t => (∀ x ∈ t.stack, x < A.length) ∧
      (∀ n r, t.visited n = some r → r = dTot A f kw n)) ?_ k s s' h hG
  intro t t' ht hGt
  obtain ⟨hstack, hcons⟩ := hGt
  rcases stepF_inl_cases ht with ⟨_, rfl⟩ |
    ⟨cur, rest, r, hstk, hall, hfn, rfl⟩ | ⟨cur, rest, unvis, hstk, hu, rfl⟩
  · exact ⟨hstack, hcons⟩
  · have hcurlen : cur < A.length :=
      hstack cur (hstk ▸ List.mem_cons_self cur rest)
    constructor
    · intro x hx
      exact hstack x (hstk ▸ List.mem_cons_of_mem cur hx)
    · intro n r' hr'
      by_cases hcur : n = cur
      · subst hcur
        have hrr : r = r' := by
          simpa [updt] using hr'
        have hfr : r = f n ((opsOf A n).filterMap t.visited) kw :=
          (Except.ok.inj hfn).symm
        have hmap : (opsOf A n).filterMap t.visited =
            (opsOf A n).map (dTot A f kw) := by
          apply filterMap_eq_map_of
          intro c hc
          obtain ⟨rc, hrc⟩ := Option.isSome_iff_exists.mp (hall c hc)
          rw [hrc, hcons c rc hrc]
        rw [← hrr, hfr, hmap]
        exact (dTot_eq hA hcurlen).symm
      · have : t.visited n = some r' := by
          simpa [updt, hcur] using hr'
        exact hcons n r' this
  · have hcurlen : cur < A.length :=
      hstack cur (hstk ▸ List.mem_cons_self cur rest)
    refine ⟨?_, hcons⟩
    intro x hx
    rcases List.mem_append.mp hx with hx | hx
    · exact Nat.lt_trans
        (wfArena_lt hA hcurlen (hu x (List.mem_reverse.mp hx))) hcurlen
    · exact hstack x (hstk ▸ hx)

/-- Every memoized value was returned by some invocation of `fn` on its
node (unless it was already present initially). -/
theorem iterate_fromFn :
    ∀ {k : Nat} {s s' : St R},
      (stepF A fn kw)^[k] (.inl s) = .inl s' →
      (∀ n r, s.visited n = some r → ∃ args, fn n args kw = .ok r) →
      (∀ n r, s'.visited n = some r → ∃ args, fn n args kw = .ok r) := by
  intro k s s' h hs
  refine iterate_inl_ind
    (fun t => ∀ n r, t.visited n = some r → ∃ args, fn n args kw = .ok r)
    ?_ k s s' h hs
  intro t t' ht hFt
  rcases stepF_inl_cases ht with ⟨_, rfl⟩ |
    ⟨cur, rest, r, hstk, hall, hfn, rfl⟩ | ⟨cur, rest, unvis, hstk, hu, rfl⟩
  · exact hFt
  · intro n r' hr'
    by_cases hcur : n = cur
    · subst hcur
      have hrr : r = r' := by
        simpa [updt] using hr'
      exact ⟨(opsOf A n).filterMap t.visited, hrr ▸ hfn⟩
    · have : t.visited n = some r' := by
        simpa [updt, hcur] using hr'
      exact hFt n r' this
  · exact hFt

/-- A node on which `fn` never returns is never memoized. -/
theorem iterate_neverOk {Bad : Nat → Prop}
    (hbad : ∀ m args r, Bad m → fn m args kw ≠ .ok r) :
    ∀ {k : Nat} {s s' : St R},
      (stepF A fn kw)^[k] (.inl s) = .inl s' →
      (∀ m, Bad m → s.visited m = none) →
      (∀ m, Bad m → s'.visited m = none) := by
  intro k s s' h hN
  refine iterate_inl_ind
    (fun t => ∀ m, Bad m → t.visited m = none) ?_ k s s' h hN
  intro t t' ht hNt
  rcases stepF_inl_cases ht with ⟨_, rfl⟩ |
    ⟨cur, rest, r, hstk, hall, hfn, rfl⟩ | ⟨cur, rest, unvis, hstk, hu, rfl⟩
  · exact hNt
  · intro m hm
    have hmc : m ≠ cur := by
      intro hEq
      exact hbad cur ((opsOf A cur).filterMap t.visited) r (hEq ▸ hm) hfn
    simpa [updt, hmc] using hNt m hm
  · exact hNt

end Invariants

/-- Started on a well-formed arena, the loop either aborts with an error
raised by `fn` at a reachable node or finishes with the root memoized. -/
theorem postvisitorRun_cases {R K ε : Type} (A : Arena)
    (fn : Nat → List R → K → Except ε R) (kw : K) (root : Nat)
    (hA : wfArena A = true) (hroot : root < A.length) :
    ∃ k, ErrOut A fn kw root (postvisitorRun A fn kw root k) ∨
      (∃ (V' : Nat → Option R) (tr' : List Nat),
        postvisitorRun A fn kw root k = .inl ⟨[], V', tr'⟩ ∧
        (V' root).isSome = true) := by
  obtain ⟨k, h⟩ :=
    @processNode R K ε A fn kw hA root hroot [] (fun _ => none) []
  exact ⟨k, h⟩

/-! ## Equations of the rule table -/

theorem diffRule_number {e : Expr} {c : List Expr} {var : String} {v : Int}
    (h : e.kind = .number v) : diffRule e c var = .ok (NumberT 0) := by
  unfold diffRule
  rw [h]

theorem diffRule_symbol {e : Expr} {c : List Expr} {var s : String}
    (h : e.kind = .symbol s) :
    diffRule e c var = .ok (if s = var then NumberT 1 else NumberT 0) := by
  unfold diffRule
  rw [h]

theorem diffRule_add {e : Expr} {c0 c1 : Expr} {cs : List Expr}
    {var : String} (h : e.kind = .add) :
    diffRule e (c0 :: c1 :: cs) var = .ok (.mk .add [c0, c1]) := by
  unfold diffRule
  rw [h]
  rfl

theorem diffRule_sub {e : Expr} {c0 c1 : Expr} {cs : List Expr}
    {var : String} (h : e.kind = .sub) :
    diffRule e (c0 :: c1 :: cs) var = .ok (.mk .sub [c0, c1]) := by
  unfold diffRule
  rw [h]
  rfl

theorem diffRule_mul {e : Expr} {a b c0 c1 : Expr} {cs : List Expr}
    {var : String} (h : e.kind = .mul) (hops : e.ops = [a, b]) :
    diffRule e (c0 :: c1 :: cs) var =
      .ok (.mk .add [.mk .mul [c0, b], .mk .mul [c1, a]]) := by
  unfold diffRule
  rw [h, hops]
  rfl

theorem diffRule_div {e : Expr} {a b c0 c1 : Expr} {cs : List Expr}
    {var : String} (h : e.kind = .div) (hops : e.ops = [a, b]) :
    diffRule e (c0 :: c1 :: cs) var =
      .ok (.mk .div [.mk .sub [.mk .mul [c0, b], .mk .mul [c1, a]],
                     .mk .pow [b, NumberT 2]]) := by
  unfold diffRule
  rw [h, hops]
  rfl

theorem diffRule_pow {e : Expr} {a b : Expr} {c : List Expr} {var : String}
    (h : e.kind = .pow) (hops : e.ops = [a, b]) :
    diffRule e c var =
      .ok (.mk .mul [b, .mk .pow [a, .mk .sub [b, NumberT 1]]]) := by
  unfold diffRule
  rw [h, hops]
  rfl

theorem diffRule_other {e : Expr} {c : List Expr} {var nm : String}
    (h : e.kind = .other nm) :
    diffRule e c var =
      .error (.notImplemented ("Cannot differentiate a " ++ nm)) := by
  unfold diffRule
  rw [h]

theorem arity2_ops {A : Arena} (h2 : arity2 A = true) {m : Nat}
    (hm : m < A.length) (hop : (kindOf A m).isOp = true) :
    (opsOf A m).length = 2 := by
  have hget : List.get? A m = some (A.get ⟨m, hm⟩) := List.get?_eq_get hm
  have hmem : A.get ⟨m, hm⟩ ∈ A := A.get_mem m hm
  have := List.all_eq_true.mp h2 _ hmem
  rw [Bool.or_eq_true, Bool.not_eq_true'] at this
  unfold opsOf
  unfold kindOf at hop
  rw [hget] at hop ⊢
  simp only [Option.getD_some] at hop ⊢
  rcases this with hfalse | hlen
  · rw [hop] at hfalse
    exact absurd hfalse (by simp)
  · exact of_decide_eq_true hlen

/-! ## Concrete graphs used as witnesses and counterexamples -/

/-- Built as `x = Symbol("x"); expr = x + x * 1`: node `0` is an operand of
the two distinct parents `2` (`Mul`) and `3` (`Add`) — a shared
subexpression. -/
def arenaShared : Arena :=
  [⟨.symbol "x", []⟩, ⟨.number 1, []⟩, ⟨.mul, [0, 1]⟩, ⟨.add, [0, 2]⟩]

/-- `Symbol("x") + Symbol("y")`. -/
def arenaAddXY : Arena :=
  [⟨.symbol "x", []⟩, ⟨.symbol "y", []⟩, ⟨.add, [0, 1]⟩]

/-- A single node of an `Expression` subclass `Foo` with no registered
differentiation rule. -/
def arenaFoo : Arena := [⟨.other "Foo", []⟩]

/-- `Symbol("x") ** Number(2)`. -/
def arenaPowX2 : Arena :=
  [⟨.symbol "x", []⟩, ⟨.number 2, []⟩, ⟨.pow, [0, 1]⟩]

/-- `Number(5)`. -/
def arenaNum5 : Arena := [⟨.number 5, []⟩]

/-! ## The claims -/

/-- C9: for every finite acyclic expression graph (a well-formed arena with
the root in range) and every combining function `f` that returns on every
invocation, `postvisitor` terminates: some finite number of iterations of
the explicit work-list loop ends with the empty stack and returns a result.
The embedding is the iterative loop itself, so no host call stack is
involved. -/
theorem claim9_postvisitor_terminates {R K : Type} (A : Arena) (root : Nat)
    (f : Nat → List R → K → R) (kw : K)
    (hA : wfArena A = true) (hroot : root < A.length) :
    ∃ fuel r, postvisitorFuel A (okify f) kw root fuel = some (.ok r) := by
  obtain ⟨k, h⟩ := postvisitorRun_cases A (okify f) kw root hA hroot
  rcases h with ⟨e, m, args, hout, _, _, hfn⟩ | ⟨V', tr', hrun, hsome⟩
  · exact absurd hfn (by simp [okify])
  · obtain ⟨r, hr⟩ := Option.isSome_iff_exists.mp hsome
    refine ⟨k, r, ?_⟩
    unfold postvisitorFuel
    rw [hrun]
    simp [hr]

/-- Witness for C9 at the concrete shared graph `x + x * 1`. -/
theorem claim9_witness :
    wfArena arenaShared = true ∧ 3 < arenaShared.length ∧
    (∃ fuel r, postvisitorFuel arenaShared (okify fun n _ _ => n) () 3 fuel =
      some (.ok r)) :=
  ⟨by decide, by decide,
    claim9_postvisitor_terminates arenaShared 3 (fun n _ _ => n) ()
      (by decide) (by decide)⟩

/-- C3: `postvisitor(expr, fn, **kwargs)` returns `fn`'s result for the root
node — the postorder fold `dTot` of `fn` over the graph, with the keyword
arguments `kw` passed unchanged to every invocation — and the invocation
trace is postordered: every operand of a node is invoked strictly before
each invocation of the node itself. -/
theorem claim3_postvisitor_postorder_fold {R K : Type} (A : Arena)
    (root : Nat) (f : Nat → List R → K → R) (kw : K)
    (hA : wfArena A = true) (hroot : root < A.length) :
    ∃ fuel tr,
      postvisitorFuel A (okify f) kw root fuel =
        some (.ok (dTot A f kw root)) ∧
      postvisitorTraceF A (okify f) kw root fuel = some tr ∧
      TraceOrd A tr := by
  obtain ⟨k, h⟩ := postvisitorRun_cases A (okify f) kw root hA hroot
  rcases h with ⟨e, m, args, hout, _, _, hfn⟩ | ⟨V', tr', hrun, hsome⟩
  · exact absurd hfn (by simp [okify])
  · have hrun' : (stepF A (okify f) kw)^[k]
        (.inl ⟨[root], fun _ => none, []⟩) = .inl ⟨[], V', tr'⟩ := hrun
    have hcons := iterate_consistent hA hrun'
      ⟨fun x hx => by
        rw [List.mem_singleton.mp hx]; exact hroot,
       fun n r hn => Option.noConfusion hn⟩
    have htr := iterate_traceinv hrun'
      ⟨fun n hn => by simp at hn,
       fun i m hi => absurd hi (by simp)⟩
    obtain ⟨r, hr⟩ := Option.isSome_iff_exists.mp hsome
    have hrd : r = dTot A f kw root := hcons.2 root r hr
    refine ⟨k, tr', ?_, ?_, htr.2⟩
    · unfold postvisitorFuel
      rw [hrun]
      simp [hr, hrd]
    · unfold postvisitorTraceF
      rw [hrun]
      simp

/-- Witness for C3 at the concrete shared graph `x + x * 1`. -/
theorem claim3_witness :
    wfArena arenaShared = true ∧ 3 < arenaShared.length ∧
    (∃ fuel tr,
      postvisitorFuel arenaShared (okify fun n c _ => n + c.sum) () 3 fuel =
        some (.ok (dTot arenaShared (fun n c _ => n + c.sum) () 3)) ∧
      postvisitorTraceF arenaShared (okify fun n c _ => n + c.sum) () 3
        fuel = some tr ∧
      TraceOrd arenaShared tr) :=
  ⟨by decide, by decide,
    claim3_postvisitor_postorder_fold arenaShared 3 (fun n c _ => n + c.sum)
      () (by decide) (by decide)⟩

/-- C1 (amended): `postvisitor` invokes `fn` *at least* once per distinct
node identity — every node of the graph occurs in the invocation trace, so
the invocation count is at least the number of distinct node identities.
(The claimed "at most once"/"exactly once" bound fails; see the
counterexample, where a shared node stacked twice before its first visit is
invoked again.) -/
theorem claim1_postvisitor_at_least_once {R K : Type} (A : Arena)
    (root : Nat) (f : Nat → List R → K → R) (kw : K)
    (hA : wfArena A = true) (hroot : root < A.length) :
    ∃ fuel tr, postvisitorTraceF A (okify f) kw root fuel = some tr ∧
      (∀ m, Reaches A root m → m ∈ tr) ∧
      (reachFinset A root).card ≤ tr.length := by
  obtain ⟨k, h⟩ := postvisitorRun_cases A (okify f) kw root hA hroot
  rcases h with ⟨e, m, args, hout, _, _, hfn⟩ | ⟨V', tr', hrun, hsome⟩
  · exact absurd hfn (by simp [okify])
  · have hrun' : (stepF A (okify f) kw)^[k]
        (.inl ⟨[root], fun _ => none, []⟩) = .inl ⟨[], V', tr'⟩ := hrun
    have hclosed : ClosedV A V' := iterate_closed hrun'
      (fun n hn => by simp at hn)
    have htr := iterate_traceinv hrun'
      ⟨fun n hn => by simp at hn,
       fun i m hi => absurd hi (by simp)⟩
    have hmem : ∀ m, Reaches A root m → m ∈ tr' := by
      intro m hm
      exact htr.1 m (closed_reach hclosed hm hsome)
    refine ⟨k, tr', ?_, hmem, ?_⟩
    · unfold postvisitorTraceF
      rw [hrun]
      simp
    · calc (reachFinset A root).card
          ≤ tr'.toFinset.card := by
            apply Finset.card_le_card
            intro m hm
            exact List.mem_toFinset.mpr (hmem m (reachFinset_sound hm))
        _ ≤ tr'.length := tr'.toFinset_card_le

/-- Witness for C1's amended statement at the shared graph `x + x * 1`. -/
theorem claim1_witness :
    wfArena arenaShared = true ∧ 3 < arenaShared.length ∧
    (∃ fuel tr,
      postvisitorTraceF arenaShared (okify fun n _ _ => n) () 3 fuel =
        some tr ∧
      (∀ m, Reaches arenaShared 3 m → m ∈ tr) ∧
      (reachFinset arenaShared 3).card ≤ tr.length) :=
  ⟨by decide, by decide,
    claim1_postvisitor_at_least_once arenaShared 3 (fun n _ _ => n) ()
      (by decide) (by decide)⟩

/-- Counterexample to C1 as stated: in `x + x * 1` the node `0` (`x`) is an
operand of the two distinct parents `2` and `3`, yet the completed run
invokes `fn` on it twice — the trace is `[1, 0, 2, 0, 3]`, of length 5,
although the graph has only 4 distinct node identities.  So "invoked exactly
once for that node" and "total equals the number of distinct node
identities" both fail. -/
theorem claim1_counterexample :
    (0 : Nat) ∈ opsOf arenaShared 2 ∧ (0 : Nat) ∈ opsOf arenaShared 3 ∧
    (2 : Nat) ≠ 3 ∧
    postvisitorTraceF arenaShared (okify fun n _ _ => n) () 3 7 =
      some [1, 0, 2, 0, 3] ∧
    List.count 0 [1, 0, 2, 0, 3] = 2 ∧
    ([1, 0, 2, 0, 3] : List Nat).length = 5 ∧
    (reachFinset arenaShared 3).card = 4 := by
  exact ⟨by decide, by decide, by decide, rfl, by decide, rfl, by decide⟩

/-- On a node whose class is in the rule table, called with one positional
argument per operand (as `postvisitor` does), the dispatched rule returns
rather than raising. -/
theorem diffFn_ok_of_not_other {A : Arena} {m : Nat} {args : List Expr}
    {var : String} (h2 : arity2 A = true) (hmlen : m < A.length)
    (hlen : args.length = (opsOf A m).length)
    (hnot : ∀ nm, kindOf A m ≠ .other nm) :
    ∃ r, diffFn A m args var = .ok r := by
  have hfd : diffFn A m args var = diffRule (unfold A m) args var := rfl
  have hku : (unfold A m).kind = kindOf A m := unfold_kind A m
  match hk : kindOf A m with
  | .number v => exact ⟨_, by rw [hfd, diffRule_number (hku.trans hk)]⟩
  | .symbol s => exact ⟨_, by rw [hfd, diffRule_symbol (hku.trans hk)]⟩
  | .add =>
      have hl2 : args.length = 2 :=
        hlen.trans (arity2_ops h2 hmlen (by rw [hk]; rfl))
      obtain ⟨a0, a1, rfl⟩ := List.length_eq_two.mp hl2
      exact ⟨_, by rw [hfd, diffRule_add (hku.trans hk)]⟩
  | .sub =>
      have hl2 : args.length = 2 :=
        hlen.trans (arity2_ops h2 hmlen (by rw [hk]; rfl))
      obtain ⟨a0, a1, rfl⟩ := List.length_eq_two.mp hl2
      exact ⟨_, by rw [hfd, diffRule_sub (hku.trans hk)]⟩
  | .mul =>
      have hopl : (opsOf A m).length = 2 :=
        arity2_ops h2 hmlen (by rw [hk]; rfl)
      have hl2 : args.length = 2 := hlen.trans hopl
      obtain ⟨a0, a1, rfl⟩ := List.length_eq_two.mp hl2
      obtain ⟨a, b, hab⟩ := List.length_eq_two.mp
        ((unfold_ops_length A m).trans hopl)
      exact ⟨_, by rw [hfd, diffRule_mul (hku.trans hk) hab]⟩
  | .div =>
      have hopl : (opsOf A m).length = 2 :=
        arity2_ops h2 hmlen (by rw [hk]; rfl)
      have hl2 : args.length = 2 := hlen.trans hopl
      obtain ⟨a0, a1, rfl⟩ := List.length_eq_two.mp hl2
      obtain ⟨a, b, hab⟩ := List.length_eq_two.mp
        ((unfold_ops_length A m).trans hopl)
      exact ⟨_, by rw [hfd, diffRule_div (hku.trans hk) hab]⟩
  | .pow =>
      have hopl : (opsOf A m).length = 2 :=
        arity2_ops h2 hmlen (by rw [hk]; rfl)
      obtain ⟨a, b, hab⟩ := List.length_eq_two.mp
        ((unfold_ops_length A m).trans hopl)
      exact ⟨_, by rw [hfd, diffRule_pow (hku.trans hk) hab]⟩
  | .other nm => exact absurd hk (hnot nm)

/-- C5: invoking the differentiation rules through `postvisitor` on a graph
that contains a node of a kind absent from the rule table makes the run
abort with the `NotImplementedError` of the `singledispatch` base case,
naming the class of an unsupported reachable node, and that error surfaces
unmodified to the `postvisitor` caller. -/
theorem claim5_unsupported_kind (A : Arena) (root : Nat) (var : String)
    (hA : wfArena A = true) (h2 : arity2 A = true) (hroot : root < A.length)
    (m₀ : Nat) (name₀ : String) (hreach₀ : Reaches A root m₀)
    (hkind₀ : kindOf A m₀ = .other name₀) :
    ∃ fuel m name, Reaches A root m ∧ kindOf A m = .other name ∧
      postvisitorFuel A (diffFn A) var root fuel =
        some (.error (.notImplemented ("Cannot differentiate a " ++ name))) := by
  have hbad : ∀ (m : Nat) (args : List Expr) (r : Expr),
      (∃ nm, kindOf A m = .other nm) → diffFn A m args var ≠ .ok r := by
    rintro m args r ⟨nm, hnm⟩ hok
    rw [show diffFn A m args var = diffRule (unfold A m) args var from rfl,
      diffRule_other ((unfold_kind A m).trans hnm)] at hok
    exact Except.noConfusion hok
  obtain ⟨k, h⟩ := postvisitorRun_cases A (diffFn A) var root hA hroot
  rcases h with ⟨e, m, args, hout, hreach, hlen, hfnm⟩ | ⟨V', tr', hrun, hsome⟩
  · by_cases hoth : ∃ nm, kindOf A m = .other nm
    · obtain ⟨nm, hk⟩ := hoth
      have herr : diffFn A m args var =
          .error (.notImplemented ("Cannot differentiate a " ++ nm)) := by
        rw [show diffFn A m args var = diffRule (unfold A m) args var from rfl,
          diffRule_other ((unfold_kind A m).trans hk)]
      have he : e = .notImplemented ("Cannot differentiate a " ++ nm) :=
        Except.error.inj (hfnm.symm.trans herr)
      refine ⟨k, m, nm, hreach, hk, ?_⟩
      unfold postvisitorFuel
      rw [hout, he]
    · obtain ⟨r, hr⟩ := diffFn_ok_of_not_other h2
        (reaches_lt hA hreach hroot) hlen (fun nm hnm => hoth ⟨nm, hnm⟩)
      rw [hfnm] at hr
      exact absurd hr (by simp)
  · exfalso
    have hrun' : (stepF A (diffFn A) var)^[k]
        (.inl ⟨[root], fun _ => none, []⟩) = .inl ⟨[], V', tr'⟩ := hrun
    have hclosed : ClosedV A V' := iterate_closed hrun'
      (fun n hn => by simp at hn)
    have hnever := @iterate_neverOk Expr String DiffErr A (diffFn A) var
      (fun m => ∃ nm, kindOf A m = .other nm)
      (fun m args r hb => hbad m args r hb) k _ _ hrun' (fun m _ => rfl)
    have hm0some := closed_reach hclosed hreach₀ hsome
    have hnone : V' m₀ = none := hnever m₀ ⟨name₀, hkind₀⟩
    rw [hnone] at hm0some
    exact absurd hm0some (by simp)

/-- Witness for C5 at a one-node graph of the unregistered class `Foo`. -/
theorem claim5_witness :
    wfArena arenaFoo = true ∧ arity2 arenaFoo = true ∧
    0 < arenaFoo.length ∧ kindOf arenaFoo 0 = .other "Foo" ∧
    (∃ fuel m name, Reaches arenaFoo 0 m ∧
      kindOf arenaFoo m = .other name ∧
      postvisitorFuel arenaFoo (diffFn arenaFoo) "x" 0 fuel =
        some (.error (.notImplemented ("Cannot differentiate a " ++ name)))) :=
  ⟨by decide, by decide, by decide, rfl,
    claim5_unsupported_kind arenaFoo 0 "x" (by decide) (by decide)
      (by decide) 0 "Foo" (Reaches.refl 0) rfl⟩

/-- C2 (amended): in the code, `differentiate` is the `singledispatch`
per-node rule — the combining function — not a wrapper around the visitor.
A direct call `differentiate(expr, var=var)` passes an empty tuple of child
results to the dispatched rule, so whether it matches
`postvisitor(expr, differentiate, var=var)` depends on whether the rule
reads the child results: (1) on a leaf node the two coincide (one loop
iteration); (2) on a `Pow` node — whose rule reads only the original
operands, never `c` — the direct call also returns the very result the
visitor produces, whenever every reachable node kind is registered; but
(3) on an `Add`, `Sub`, `Mul` or `Div` node the direct call raises
`IndexError` (`c[0]` on the empty tuple) while the visitor returns the
derivative (see the counterexample), so the two are not equal in
general. -/
theorem claim2_differentiate_is_rule :
    (∀ (A : Arena) (root : Nat) (var : String), opsOf A root = [] →
        postvisitorFuel A (diffFn A) var root 1 =
          some (differentiateDirect (unfold A root) var)) ∧
    (∀ (A : Arena) (root : Nat) (var : String),
        wfArena A = true → arity2 A = true → root < A.length →
        (∀ m, Reaches A root m → ∀ nm, kindOf A m ≠ .other nm) →
        kindOf A root = .pow →
        ∃ fuel r,
          postvisitorFuel A (diffFn A) var root fuel = some (.ok r) ∧
          differentiateDirect (unfold A root) var = .ok r) ∧
    (∀ (ops : List Expr) (var : String),
        differentiateDirect (.mk .add ops) var = .error .indexError ∧
        differentiateDirect (.mk .sub ops) var = .error .indexError ∧
        differentiateDirect (.mk .mul ops) var = .error .indexError ∧
        differentiateDirect (.mk .div ops) var = .error .indexError) := by
  refine ⟨?_, ?_, fun ops var => ⟨rfl, rfl, rfl, rfl⟩⟩
  · intro A root var hops
    have hempt : ((opsOf A root).filter fun c =>
        ((fun _ => (none : Option Expr)) c).isNone).isEmpty = true := by
      rw [hops]
      rfl
    have hdd : differentiateDirect (unfold A root) var =
        diffFn A root [] var := rfl
    unfold postvisitorFuel postvisitorRun
    rw [Function.iterate_one, stepF_visit hempt, hops]
    simp only [List.filterMap_nil]
    rw [hdd]
    cases hfn : diffFn A root [] var with
    | ok r => simp [updt]
    | error e => rfl
  · intro A root var hA h2 hroot hnoother hpow
    obtain ⟨a, b, hab⟩ := List.length_eq_two.mp
      ((unfold_ops_length A root).trans
        (arity2_ops h2 hroot (by rw [hpow]; rfl)))
    have hku : (unfold A root).kind = Kind.pow :=
      (unfold_kind A root).trans hpow
    obtain ⟨k, h⟩ := postvisitorRun_cases A (diffFn A) var root hA hroot
    rcases h with ⟨e, m, args, hout, hreach, hlen, hfnm⟩ |
      ⟨V', tr', hrun, hsome⟩
    · obtain ⟨r, hr⟩ := diffFn_ok_of_not_other h2
        (reaches_lt hA hreach hroot) hlen (hnoother m hreach)
      rw [hfnm] at hr
      exact absurd hr (by simp)
    · have hrun' : (stepF A (diffFn A) var)^[k]
          (.inl ⟨[root], fun _ => none, []⟩) = .inl ⟨[], V', tr'⟩ := hrun
      obtain ⟨r, hr⟩ := Option.isSome_iff_exists.mp hsome
      obtain ⟨args, hargs⟩ := iterate_fromFn hrun'
        (fun n r' hn => Option.noConfusion hn) root r hr
      have hpowEq : diffFn A root args var =
          .ok (.mk .mul [b, .mk .pow [a, .mk .sub [b, NumberT 1]]]) :=
        diffRule_pow hku hab
      have hrval : r =
          .mk .mul [b, .mk .pow [a, .mk .sub [b, NumberT 1]]] :=
        Except.ok.inj (hargs.symm.trans hpowEq)
      refine ⟨k, r, ?_, ?_⟩
      · unfold postvisitorFuel
        rw [hrun]
        simp [hr]
      · rw [show differentiateDirect (unfold A root) var =
            diffRule (unfold A root) [] var from rfl,
          diffRule_pow hku hab, hrval]

/-- Witness for C2's amended statement: on the leaf `Number(5)` the direct
call and the visitor agree after one iteration; on
`Symbol("x") ** Number(2)` the direct call returns and matches the visitor;
on an `Add` node with no child results the direct call raises
`IndexError`. -/
theorem claim2_witness :
    (opsOf arenaNum5 0 = [] ∧
      postvisitorFuel arenaNum5 (diffFn arenaNum5) "x" 0 1 =
        some (differentiateDirect (unfold arenaNum5 0) "x")) ∧
    (∃ fuel r,
      postvisitorFuel arenaPowX2 (diffFn arenaPowX2) "x" 2 fuel =
        some (.ok r) ∧
      differentiateDirect (unfold arenaPowX2 2) "x" = .ok r) ∧
    differentiateDirect (.mk .add []) "x" = .error .indexError :=
  have hnoother : ∀ m, Reaches arenaPowX2 2 m →
      ∀ nm, kindOf arenaPowX2 m ≠ .other nm := by
    intro m hm
    have hmlt : m < arenaPowX2.length :=
      reaches_lt (by decide) hm (by decide)
    match m, hmlt with
    | 0, _ => exact fun nm hk => nomatch hk
    | 1, _ => exact fun nm hk => nomatch hk
    | 2, _ => exact fun nm hk => nomatch hk
  ⟨⟨rfl, claim2_differentiate_is_rule.1 arenaNum5 0 "x" rfl⟩,
   claim2_differentiate_is_rule.2.1 arenaPowX2 2 "x" (by decide) (by decide)
     (by decide) hnoother rfl,
   (claim2_differentiate_is_rule.2.2 [] "x").1⟩

/-- Counterexample to C2 as stated: on `Symbol("x") + Symbol("y")` the
direct call `differentiate(expr, var="x")` raises `IndexError` (the rule
reads `c[0]` from an empty tuple of child results), while
`postvisitor(expr, differentiate, var="x")` returns the derivative
`Add(Number(1), Number(0))` — so `differentiate` is not an entry point
equal to the postorder fold. -/
theorem claim2_counterexample :
    differentiateDirect (unfold arenaAddXY 2) "x" = .error .indexError ∧
    postvisitorFuel arenaAddXY (diffFn arenaAddXY) "x" 2 4 =
      some (.ok (.mk .add [NumberT 1, NumberT 0])) ∧
    (Except.error DiffErr.indexError : Except DiffErr Expr) ≠
      .ok (.mk .add [NumberT 1, NumberT 0]) :=
  ⟨rfl, rfl, fun h => Except.noConfusion h⟩

/-- C4: the registered rules return exactly the trees of the rule table,
built from the already-differentiated children `c0`, `c1` and — for `Mul`,
`Div` and `Pow` — the original undifferentiated operands `a`, `b`;
`Number(0)`/`Number(1)` for terminals; the `Pow` rule never touches the
child results (`c` is arbitrary, even empty); no simplification is applied
to any output. -/
theorem claim4_diff_rule_table :
    (∀ (v : Int) (ops c : List Expr) (var : String),
        diffRule (.mk (.number v) ops) c var = .ok (NumberT 0)) ∧
    (∀ (s : String) (ops c : List Expr) (var : String),
        diffRule (.mk (.symbol s) ops) c var =
          .ok (if s = var then NumberT 1 else NumberT 0)) ∧
    (∀ (ops : List Expr) (c0 c1 : Expr) (cs : List Expr) (var : String),
        diffRule (.mk .add ops) (c0 :: c1 :: cs) var =
          .ok (.mk .add [c0, c1])) ∧
    (∀ (ops : List Expr) (c0 c1 : Expr) (cs : List Expr) (var : String),
        diffRule (.mk .sub ops) (c0 :: c1 :: cs) var =
          .ok (.mk .sub [c0, c1])) ∧
    (∀ (a b : Expr) (rest : List Expr) (c0 c1 : Expr) (cs : List Expr)
        (var : String),
        diffRule (.mk .mul (a :: b :: rest)) (c0 :: c1 :: cs) var =
          .ok (.mk .add [.mk .mul [c0, b], .mk .mul [c1, a]])) ∧
    (∀ (a b : Expr) (rest : List Expr) (c0 c1 : Expr) (cs : List Expr)
        (var : String),
        diffRule (.mk .div (a :: b :: rest)) (c0 :: c1 :: cs) var =
          .ok (.mk .div [.mk .sub [.mk .mul [c0, b], .mk .mul [c1, a]],
                         .mk .pow [b, NumberT 2]])) ∧
    (∀ (a b : Expr) (rest : List Expr) (c : List Expr) (var : String),
        diffRule (.mk .pow (a :: b :: rest)) c var =
          .ok (.mk .mul [b, .mk .pow [a, .mk .sub [b, NumberT 1]]])) :=
  ⟨fun _ _ _ _ => rfl, fun _ _ _ _ => rfl, fun _ _ _ _ _ => rfl,
   fun _ _ _ _ _ => rfl, fun _ _ _ _ _ _ _ => rfl,
   fun _ _ _ _ _ _ _ => rfl, fun _ _ _ _ _ => rfl⟩

/-- C6: `Number(v)` succeeds exactly on numeric payloads and `Symbol(name)`
exactly on text payloads, both raising the same `TypeError` kind otherwise;
in particular `Symbol(42)` and `Number("abc")` raise it. -/
theorem claim6_constructor_type_errors :
    (∀ v : PyVal, (∃ e, NumberInit v = .ok e) ↔ v.isNumeric = true) ∧
    (∀ v : PyVal, (∃ e, SymbolInit v = .ok e) ↔ v.isText = true) ∧
    SymbolInit (.int 42) = .error .typeError ∧
    NumberInit (.str "abc") = .error .typeError := by
  refine ⟨fun v => ?_, fun v => ?_, rfl, rfl⟩
  · cases v <;> simp [NumberInit, PyVal.isNumeric]
  · cases v <;> simp [SymbolInit, PyVal.isText]

/-- Witness for C6: a numeric payload is accepted by `Number` and a text
payload by `Symbol`. -/
theorem claim6_witness :
    (∃ e, NumberInit (.int 3) = .ok e) ∧
    (∃ e, SymbolInit (.str "a") = .ok e) :=
  ⟨(claim6_constructor_type_errors.1 (.int 3)).mpr rfl,
   (claim6_constructor_type_errors.2.1 (.str "a")).mpr rfl⟩

/-- C7: each arithmetic composition stores the operand pair in fixed
left/right order, boxing only raw numeric operands (`boxOperand` keeps
expressions untouched and wraps integers in `Number`); the reflected forms
preserve the order too, so `k - e` has operands `(Number(k), e)`. -/
theorem claim7_composition_operand_order :
    (∀ n : Int, boxOperand (.inl n) = NumberT n) ∧
    (∀ e : Expr, boxOperand (.inr e) = e) ∧
    (∀ (e1 : Expr) (x : Int ⊕ Expr),
      (e1.dunderAdd x).kind = .add ∧
        (e1.dunderAdd x).ops = [e1, boxOperand x] ∧
      (e1.dunderSub x).kind = .sub ∧
        (e1.dunderSub x).ops = [e1, boxOperand x] ∧
      (e1.dunderMul x).kind = .mul ∧
        (e1.dunderMul x).ops = [e1, boxOperand x] ∧
      (e1.dunderDiv x).kind = .div ∧
        (e1.dunderDiv x).ops = [e1, boxOperand x] ∧
      (e1.dunderPow x).kind = .pow ∧
        (e1.dunderPow x).ops = [e1, boxOperand x] ∧
      (e1.dunderRAdd x).kind = .add ∧
        (e1.dunderRAdd x).ops = [boxOperand x, e1] ∧
      (e1.dunderRSub x).kind = .sub ∧
        (e1.dunderRSub x).ops = [boxOperand x, e1] ∧
      (e1.dunderRMul x).kind = .mul ∧
        (e1.dunderRMul x).ops = [boxOperand x, e1] ∧
      (e1.dunderRDiv x).kind = .div ∧
        (e1.dunderRDiv x).ops = [boxOperand x, e1] ∧
      (e1.dunderRPow x).kind = .pow ∧
        (e1.dunderRPow x).ops = [boxOperand x, e1]) ∧
    (∀ (k : Int) (e : Expr), (e.dunderRSub (.inl k)).ops = [NumberT k, e]) :=
  ⟨fun _ => rfl, fun _ => rfl,
   fun _ _ => ⟨rfl, rfl, rfl, rfl, rfl, rfl, rfl, rfl, rfl, rfl, rfl, rfl,
     rfl, rfl, rfl, rfl, rfl, rfl, rfl, rfl⟩,
   fun _ _ => rfl⟩

/-- C8: every node produced through the construction interface — terminal
constructors on well-typed payloads and binary arithmetic composition —
has an empty operand tuple if it is a `Terminal`, and exactly two operands
if it is an `Operator`. -/
theorem claim8_built_arity (e : Expr) (h : Built e) :
    (e.kind.isTerminal = true → e.ops = []) ∧
    (e.kind.isOp = true → e.ops.length = 2) := by
  induction h with
  | number v =>
      exact ⟨fun _ => rfl,
        fun hop => by simp [Expr.kind, Kind.isOp] at hop⟩
  | symbol s =>
      exact ⟨fun _ => rfl,
        fun hop => by simp [Expr.kind, Kind.isOp] at hop⟩
  | op k hk a b ha hb iha ihb =>
      refine ⟨fun ht => ?_, fun _ => rfl⟩
      exfalso
      cases k <;> simp [Kind.isOp] at hk <;>
        simp [Expr.kind, Kind.isTerminal] at ht

/-- Witness for C8 at `Symbol("x") + 1`. -/
theorem claim8_witness :
    Built ((SymbolT "x").dunderAdd (.inl 1)) ∧
    ((((SymbolT "x").dunderAdd (.inl 1)).kind.isTerminal = true →
        ((SymbolT "x").dunderAdd (.inl 1)).ops = []) ∧
     (((SymbolT "x").dunderAdd (.inl 1)).kind.isOp = true →
        ((SymbolT "x").dunderAdd (.inl 1)).ops.length = 2)) :=
  have hb : Built ((SymbolT "x").dunderAdd (.inl 1)) :=
    Built.op .add rfl (SymbolT "x") (NumberT 1)
      (Built.symbol "x") (Built.number 1)
  ⟨hb, claim8_built_arity _ hb⟩

/-- C10: `Symbol("")` is accepted — the constructor checks only that the
payload is text — and yields a node with payload `""` and no operands. -/
theorem claim10_symbol_empty_string :
    SymbolInit (.str "") = .ok (.mk (.symbol "") []) ∧
    (Expr.mk (.symbol "") []).kind = .symbol "" ∧
    (Expr.mk (.symbol "") []).ops = [] :=
  ⟨rfl, rfl, rfl⟩

end ExpressionsPy
